import Mathlib

/-!
# Easy Rider Bus Company — verification of the checking core

A shallow embedding of `easyrider.py`: the field validator
(`check_db_fields`), the line-topology classifier (`bus_lines_and_stops`),
the transfer-stop deriver (`check_start_final_transfer_stops`), the
chronology checker (`check_atime`) and the on-demand policy checker
(`check_on_demand`), together with theorems about them.

Python dicts are embedded as insertion-ordered association lists, Python
sets as duplicate-free lists (membership is the only observable the
theorems use), and `exit(1)` as the `Except.error` constructor.
-/

namespace EasyRider

/-- Generic association-list lookup (embeds Python `d[k]` / `k in d`). -/
def alook {α β : Type} [DecidableEq α] : List (α × β) → α → Option β
  | [], _ => none
  | (k, v) :: rest, a => if k = a then some v else alook rest a

/-- Association-list assignment `d[k] = v`: replaces in place if the key is
present, else appends (Python dicts keep insertion order). -/
def aset {α β : Type} [DecidableEq α] : List (α × β) → α → β → List (α × β)
  | [], k, v => [(k, v)]
  | (k', v') :: rest, k, v =>
    if k' = k then (k, v) :: rest else (k', v') :: aset rest k v

/-! ## Record model

One row of the dataset, for the four checks that access the six fields
directly (`entry['bus_id']`, ...). -/

structure Rec where
  bus_id : Int
  stop_id : Int
  stop_name : String
  next_stop : Int
  stop_type : String
  a_time : String
deriving DecidableEq

/-! ## Regex embeddings

The three compiled patterns of `check_db_fields`, embedded as executable
character-list matchers.  `re.match` anchors at the start; the trailing `$`
of each pattern also matches just before one final newline, which the
embeddings reproduce.  `\d` and `\s` are embedded at their ASCII meaning
(the Unicode extras of Python's `str` patterns play no role here). -/

def isDigitAscii (c : Char) : Bool := '0' ≤ c && c ≤ '9'

def isUpperAZ (c : Char) : Bool := 'A' ≤ c && c ≤ 'Z'

def isPySpace (c : Char) : Bool :=
  c = ' ' || c = '\t' || c = '\n' || c = '\r' || c = '\x0b' || c = '\x0c'

/-- The hour group `([0-1]\d|2[0-3])` of the `a_time` pattern. -/
def hourOk (c1 c2 : Char) : Bool :=
  ((c1 = '0' || c1 = '1') && isDigitAscii c2) ||
    (c1 = '2' && ('0' ≤ c2 && c2 ≤ '3'))

/-- The minute group `([0-5]\d|60)` of the `a_time` pattern. -/
def minuteOk (c1 c2 : Char) : Bool :=
  (('0' ≤ c1 && c1 ≤ '5') && isDigitAscii c2) ||
    (c1 = '6' && c2 = '0')

/-- `re.match(r'^([0-1]\d|2[0-3]):([0-5]\d|60)$', s)`: both alternatives of
each group consume exactly two characters, so a match is a five-character
string (plus an optional final newline accepted by `$`). -/
def a_time_matches (s : String) : Bool :=
  match s.data with
  | [h1, h2, c, m1, m2] => hourOk h1 h2 && c = ':' && minuteOk m1 m2
  | [h1, h2, c, m1, m2, nl] =>
    hourOk h1 h2 && c = ':' && minuteOk m1 m2 && nl = '\n'
  | _ => false

/-- `re.match(r'^[SOF]?$', s)`. -/
def stop_type_matches (s : String) : Bool :=
  match s.data with
  | [] => true
  | [c] => c = 'S' || c = 'O' || c = 'F' || c = '\n'
  | [c, nl] => (c = 'S' || c = 'O' || c = 'F') && nl = '\n'
  | _ => false

/-- The suffix alternation `(Road|Avenue|Boulevard|Street)` followed by the
end anchor `$` (end of string, or one final newline). -/
def suffixEndOk (l : List Char) : Bool :=
  ["Road", "Avenue", "Boulevard", "Street"].any fun sfx =>
    l = sfx.data || l = sfx.data ++ ['\n']

/-- `\s(Road|Avenue|Boulevard|Street)$` consuming exactly the list `l`. -/
def tailMatch : List Char → Bool
  | [] => false
  | c :: rest => isPySpace c && suffixEndOk rest

/-- `.+\s(Road|Avenue|Boulevard|Street)$` consuming exactly the list `l`:
one or more non-newline characters, then `tailMatch`.  The disjunction over
split points gives the existential semantics of backtracking. -/
def midMatch : List Char → Bool
  | [] => false
  | c :: rest => (c != '\n') && (tailMatch rest || midMatch rest)

/-- `re.match(r'^[A-Z].+\s(Road|Avenue|Boulevard|Street)$', s)`. -/
def stop_name_matches (s : String) : Bool :=
  match s.data with
  | [] => false
  | c :: rest => isUpperAZ c && midMatch rest

/-! ## Field validator (`check_db_fields`)

For this function a record is a raw key/value dictionary
(`for key, value in entry.items()`), embedded as a list of pairs whose
values carry Python's runtime type. -/

inductive Value where
  | vint : Int → Value
  | vstr : String → Value
  | vother : Value
deriving DecidableEq

/-- A record as seen by `check_db_fields`: the `(key, value)` items of the
dictionary, in iteration order. -/
abbrev DRecord : Type := List (String × Value)

def isIntV : Value → Bool
  | .vint _ => true
  | _ => false

/-- `isinstance(x, str) and bool(re.match(template, x))`. -/
def strPred (f : String → Bool) : Value → Bool
  | .vstr s => f s
  | _ => false

/-- The `db_fields_specification` dictionary: the per-field predicate, or
`none` for an unknown key. -/
def db_fields_specification (key : String) : Option (Value → Bool) :=
  if key = "bus_id" then some isIntV
  else if key = "stop_id" then some isIntV
  else if key = "stop_name" then some (strPred stop_name_matches)
  else if key = "next_stop" then some isIntV
  else if key = "stop_type" then some (strPred stop_type_matches)
  else if key = "a_time" then some (strPred a_time_matches)
  else none

/-- `errors.setdefault(key, 0)`. -/
def setdefault (l : List (String × Nat)) (k : String) : List (String × Nat) :=
  if (alook l k).isSome then l else l ++ [(k, 0)]

/-- `errors[key] += 1` (the key is always present when this runs). -/
def bump : List (String × Nat) → String → List (String × Nat)
  | [], _ => []
  | (k', v) :: rest, k =>
    if k' = k then (k', v + 1) :: rest else (k', v) :: bump rest k

/-- The body of the inner loop of `check_db_fields` for one `(key, value)`
item: known keys are registered with `setdefault`, and failing predicates
increment the key's count. -/
def entryStep (errors : List (String × Nat)) (kv : String × Value) :
    List (String × Nat) :=
  match db_fields_specification kv.1 with
  | none => errors
  | some pred =>
    let e1 := setdefault errors kv.1
    if pred kv.2 then e1 else bump e1 kv.1

/-- The `errors` dictionary after both loops of `check_db_fields`. -/
def dbErrors (db : List DRecord) : List (String × Nat) :=
  db.foldl (fun errs entry => entry.foldl entryStep errs) []

/-- The lines printed by `check_db_fields`: one per key with a nonzero
count. -/
def db_error_report (db : List DRecord) : List (String × Nat) :=
  (dbErrors db).filter (fun p => 0 < p.2)

/-- The return value of `check_db_fields`: `not bool(errors)`, i.e. whether
the `errors` dictionary is empty. -/
def check_db_fields (db : List DRecord) : Bool :=
  (dbErrors db).isEmpty

/-- Whether one `(key, value)` item passes its field predicate (unknown
keys pass vacuously). -/
def predAccepts (kv : String × Value) : Bool :=
  match db_fields_specification kv.1 with
  | none => true
  | some pred => pred kv.2

/-- How many items of `entry` with key `k` fail `k`'s predicate. -/
def entryFailures (entry : DRecord) (k : String) : Nat :=
  (entry.filter fun kv => decide (kv.1 = k) && !predAccepts kv).length

/-- The failure count recorded for key `k` (zero when the key never
appeared). -/
def errCount (db : List DRecord) (k : String) : Nat :=
  (alook (dbErrors db) k).getD 0

/-! ## Line topology classifier (`bus_lines_and_stops`)

The per-line dictionary value: two counters and three name sets. -/

structure LineTop where
  start_count : Nat
  final_count : Nat
  start_stop_names : List String
  final_stop_names : List String
  other_stop_names : List String
deriving DecidableEq

def emptyTop : LineTop := ⟨0, 0, [], [], []⟩

/-- `set.add`: duplicate-free list insertion. -/
def sinsert (n : String) (l : List String) : List String :=
  if n ∈ l then l else l ++ [n]

/-- The `bus_lines` dictionary: insertion-ordered association list. -/
abbrev Table : Type := List (Int × LineTop)

/-- `if entry['bus_id'] not in bus_lines: bus_lines[...] = fresh`. -/
def tensure (t : Table) (b : Int) : Table :=
  if (alook t b).isSome then t else t ++ [(b, emptyTop)]

/-- In-place update of the entry at key `b` (no-op if absent). -/
def tmodify : Table → Int → (LineTop → LineTop) → Table
  | [], _, _ => []
  | (k, lt) :: rest, b, f =>
    if k = b then (k, f lt) :: rest else (k, lt) :: tmodify rest b f

/-- The `if/elif/else` classification of one record into its line's
topology. -/
def applyRec (e : Rec) (lt : LineTop) : LineTop :=
  if e.stop_type = "S" then
    { lt with start_count := lt.start_count + 1,
              start_stop_names := sinsert e.stop_name lt.start_stop_names }
  else if e.stop_type = "F" then
    { lt with final_count := lt.final_count + 1,
              final_stop_names := sinsert e.stop_name lt.final_stop_names }
  else
    { lt with other_stop_names := sinsert e.stop_name lt.other_stop_names }

/-- Processing one record of the scan loop (before the `break` test). -/
def stepTop (t : Table) (e : Rec) : Table :=
  tmodify (tensure t e.bus_id) e.bus_id (applyRec e)

/-- The `break` condition, tested after the update on the current record's
line: `start_count > 1 or final_count > 1`. -/
def brokeAt (t : Table) (b : Int) : Bool :=
  match alook t b with
  | some lt => decide (1 < lt.start_count) || decide (1 < lt.final_count)
  | none => false

/-- The scan loop of `bus_lines_and_stops`, with its global early `break`. -/
def scanGo : Table → List Rec → Table
  | t, [] => t
  | t, e :: rest =>
    let t' := stepTop t e
    if brokeAt t' e.bus_id then t' else scanGo t' rest

/-- Whether the scan loop hits its `break` somewhere in `db`. -/
def brokeDuring : Table → List Rec → Bool
  | _, [] => false
  | t, e :: rest =>
    let t' := stepTop t e
    brokeAt t' e.bus_id || brokeDuring t' rest

/-- The assertion of the validation loop:
`start_count == 1 and final_count == 1`. -/
def lineOk (lt : LineTop) : Bool :=
  decide (lt.start_count = 1) && decide (lt.final_count = 1)

/-- The first line (in dictionary order) whose assertion fails, if any. -/
def firstViolation (t : Table) : Option Int :=
  (t.find? fun p => !lineOk p.2).map (·.1)

/-- `bus_lines_and_stops`: scan, then validate every line.  `.error b`
embeds `print(f'There is no start or end stop for the line: {b}.')`
followed by `exit(1)`; `.ok t` is the returned dictionary. -/
def bus_lines_and_stops (db : List Rec) : Except Int Table :=
  let t := scanGo [] db
  match firstViolation t with
  | some b => .error b
  | none => .ok t

/-! ## Transfer stop deriver (`check_start_final_transfer_stops`) -/

/-- `u | v` on name sets (keeps `u`, appends the new elements of `v`). -/
def unionL (u v : List String) : List String :=
  v.foldl (fun acc n => sinsert n acc) u

/-- `u & v` on name sets. -/
def interL (u v : List String) : List String :=
  u.filter (· ∈ v)

/-- A line's full stop-name set
`start_stop_names | final_stop_names | other_stop_names`. -/
def fullNames (lt : LineTop) : List String :=
  unionL (unionL lt.start_stop_names lt.final_stop_names) lt.other_stop_names

/-- `itertools.combinations(l, 2)` as ordered position pairs. -/
def pairsOf {α : Type} : List α → List (α × α)
  | [] => []
  | x :: xs => (xs.map fun y => (x, y)) ++ pairsOf xs

/-- `check_start_final_transfer_stops`: re-runs the topology classifier
(propagating its fatal exit), then folds the three global sets. -/
def check_start_final_transfer_stops (db : List Rec) :
    Except Int (List String × List String × List String) :=
  match bus_lines_and_stops db with
  | .error b => .error b
  | .ok t =>
    let start_stops := t.foldl (fun acc p => unionL acc p.2.start_stop_names) []
    let finish_stops := t.foldl (fun acc p => unionL acc p.2.final_stop_names) []
    let all_stops := t.map fun p => fullNames p.2
    let transfer_stops :=
      (pairsOf all_stops).foldl (fun acc uv => unionL acc (interL uv.1 uv.2)) []
    .ok (start_stops, transfer_stops, finish_stops)

/-! ## Chronology checker (`check_atime`) -/

/-- The mutable state of `check_atime`: `bus_last_stop_arrival_time`,
`bus_line_blacklist`, and the diagnostics printed so far (a diagnostic
`(b, name)` embeds
`print(f'bus_id line {b}: wrong time on station {name}')`). -/
structure AtimeState where
  times : List (Int × String)
  blacklist : List Int
  diags : List (Int × String)
deriving DecidableEq

/-- The loop body of `check_atime` for one record.  Arrival times are
compared as strings, exactly as in the source. -/
def atimeStep (s : AtimeState) (e : Rec) : AtimeState :=
  if e.bus_id ∈ s.blacklist then s
  else
    match alook s.times e.bus_id with
    | none => { s with times := aset s.times e.bus_id e.a_time }
    | some t =>
      if t ≤ e.a_time then { s with times := aset s.times e.bus_id e.a_time }
      else { s with blacklist := s.blacklist ++ [e.bus_id],
                    diags := s.diags ++ [(e.bus_id, e.stop_name)] }

/-- The final state of `check_atime` over the whole dataset. -/
def check_atime (db : List Rec) : AtimeState :=
  db.foldl atimeStep ⟨[], [], []⟩

/-- `if not bus_line_blacklist: print('OK')`. -/
def atime_ok_printed (db : List Rec) : Bool :=
  (check_atime db).blacklist.isEmpty

/-! ## On-demand policy checker (`check_on_demand`) -/

/-- What the check prints after its header: `OK`, or
`Wrong stop type: {sorted(incorrect_on_demand)}`. -/
inductive Report where
  | ok : Report
  | wrong : List String → Report
deriving DecidableEq

/-- The `incorrect_on_demand` set: stop names of `"O"` records that are
also members of `start_stops | transfer_stops | finish_stops`. -/
def onDemandBad (db : List Rec) (st tr fi : List String) : List String :=
  db.foldl
    (fun acc e =>
      if e.stop_type = "O" ∧ (e.stop_name ∈ st ∨ e.stop_name ∈ tr ∨ e.stop_name ∈ fi)
      then sinsert e.stop_name acc else acc)
    []

/-- Insertion into a `≤`-sorted list of strings. -/
def sins (x : String) : List String → List String
  | [] => [x]
  | y :: ys => if x ≤ y then x :: y :: ys else y :: sins x ys

/-- `sorted(...)` on a name set. -/
def ssort : List String → List String
  | [] => []
  | x :: xs => sins x (ssort xs)

/-- `check_on_demand`'s report. -/
def check_on_demand (db : List Rec) (st tr fi : List String) : Report :=
  let bad := onDemandBad db st tr fi
  if bad.isEmpty then .ok else .wrong (ssort bad)

/-- What claim C6 asserts of `check_on_demand` at a dataset and a triple
of stop-name sets: the collected set holds exactly the stop names carried
by an `"O"` record that are also members of the three sets' union, and the
report prints that set sorted when it is non-empty and `OK` otherwise. -/
def onDemandSpecProp (db : List Rec) (st tr fi : List String) : Prop :=
  (∀ n, n ∈ onDemandBad db st tr fi
      ↔ ∃ e, e ∈ db ∧ e.stop_type = "O" ∧ e.stop_name = n
          ∧ (n ∈ st ∨ n ∈ tr ∨ n ∈ fi))
  ∧ check_on_demand db st tr fi
      = (if onDemandBad db st tr fi = [] then .ok
          else .wrong (ssort (onDemandBad db st tr fi)))
  ∧ (ssort (onDemandBad db st tr fi)).Pairwise (· ≤ ·)
  ∧ (∀ n, n ∈ ssort (onDemandBad db st tr fi)
      ↔ n ∈ onDemandBad db st tr fi)

/-- A record whose only known field is an `a_time` of `"23:60"`. -/
def aTimeEntry : DRecord := [("a_time", Value.vstr "23:60")]

/-- A dataset containing `aTimeEntry` and another valid arrival time. -/
def aTimeDb : List DRecord :=
  [aTimeEntry, [("a_time", Value.vstr "08:12")]]

/-- A single fully valid record: every known field passes its predicate. -/
def validRecordDb : List DRecord :=
  [[("bus_id", Value.vint 128), ("stop_id", Value.vint 1),
    ("stop_name", Value.vstr "Prospekt Avenue"),
    ("next_stop", Value.vint 3), ("stop_type", Value.vstr "S"),
    ("a_time", Value.vstr "08:12")]]

/-- The same record with exactly one field (`stop_name`) flipped to an
invalid value. -/
def flippedRecordDb : List DRecord :=
  [[("bus_id", Value.vint 128), ("stop_id", Value.vint 1),
    ("stop_name", Value.vstr "prospekt Avenue"),
    ("next_stop", Value.vint 3), ("stop_type", Value.vstr "S"),
    ("a_time", Value.vstr "08:12")]]

/-! ## Reference behaviour of the chronology check on a single line

`lineGo` processes the records of one line the way §4.4 describes the
check: the first record only initializes the tracked time, a later record
with a time `≥` the tracked one updates it, the first strictly smaller one
blacklists the line and emits one diagnostic, and a blacklisted line's
records are skipped. -/

def lineGo (blacklisted : Bool) (tracked : Option String)
    (diags : List (Int × String)) :
    List Rec → Bool × Option String × List (Int × String)
  | [] => (blacklisted, tracked, diags)
  | e :: rest =>
    if blacklisted then lineGo blacklisted tracked diags rest
    else
      match tracked with
      | none => lineGo false (some e.a_time) diags rest
      | some t =>
        if t ≤ e.a_time then lineGo false (some e.a_time) diags rest
        else lineGo true tracked (diags ++ [(e.bus_id, e.stop_name)]) rest

/-- The observables of the chronology state that concern one line. -/
def aproj (s : AtimeState) (b : Int) :
    Bool × Option String × List (Int × String) :=
  (decide (b ∈ s.blacklist), alook s.times b,
    s.diags.filter fun d => decide (d.1 = b))

/-- What claim C4 asserts of `check_atime` at a dataset `db` and a line
`b`: the line is blacklisted, keeps the tracked time, and gets the
diagnostics that the per-line reference run `lineGo` produces on `b`'s
records alone (so records of other lines never affect `b`'s outcome); a
blacklisted line gets exactly one diagnostic; and `OK` is printed iff no
line was ever blacklisted. -/
def atimePerLineProp (db : List Rec) (b : Int) : Prop :=
  (b ∈ (check_atime db).blacklist
      ↔ (lineGo false none [] (db.filter fun e => decide (e.bus_id = b))).1
          = true)
  ∧ alook (check_atime db).times b
      = (lineGo false none [] (db.filter fun e => decide (e.bus_id = b))).2.1
  ∧ (check_atime db).diags.filter (fun d => decide (d.1 = b))
      = (lineGo false none [] (db.filter fun e => decide (e.bus_id = b))).2.2
  ∧ ((lineGo false none [] (db.filter fun e => decide (e.bus_id = b))).1
        = true
      → ((lineGo false none []
            (db.filter fun e => decide (e.bus_id = b))).2.2).length = 1)
  ∧ (atime_ok_printed db = true ↔ (check_atime db).blacklist = [])

/-- The chronology example of §8: line 1's arrival times go
08:00, 08:10, 08:05, 09:00 while line 2 runs a valid increasing sequence
interleaved with it. -/
def atimeExample : List Rec :=
  [⟨1, 1, "Stop A Road", 2, "S", "08:00"⟩,
   ⟨2, 1, "P Road", 2, "S", "07:00"⟩,
   ⟨1, 2, "Stop B Road", 3, "", "08:10"⟩,
   ⟨2, 2, "Q Road", 3, "", "07:30"⟩,
   ⟨1, 3, "Stop C Road", 4, "", "08:05"⟩,
   ⟨2, 3, "R Road", 0, "F", "07:45"⟩,
   ⟨1, 4, "Stop D Road", 0, "F", "09:00"⟩]

/-! ## Observables used by the topology theorems -/

/-- How many records of `db` belong to line `b` with stop type `"S"`. -/
def cntS (db : List Rec) (b : Int) : Nat :=
  (db.filter fun e => decide (e.bus_id = b ∧ e.stop_type = "S")).length

/-- How many records of `db` belong to line `b` with stop type `"F"`. -/
def cntF (db : List Rec) (b : Int) : Nat :=
  (db.filter fun e => decide (e.bus_id = b ∧ e.stop_type = "F")).length

/-- The lines mentioned in the dataset. -/
def busIds (db : List Rec) : List Int := db.map (·.bus_id)

/-- The start count recorded in the table for line `b` (0 when absent). -/
def pcS (t : Table) (b : Int) : Nat :=
  ((alook t b).getD emptyTop).start_count

/-- The final count recorded in the table for line `b` (0 when absent). -/
def pcF (t : Table) (b : Int) : Nat :=
  ((alook t b).getD emptyTop).final_count

/-- What claim C2 asserts of `bus_lines_and_stops` at `db`: the function
returns the topology mapping iff every line of the dataset has exactly one
start and one final record, and when some line violates that, it prints a
message naming a violating line of the computed table and exits with
status 1 (the `.error` case). -/
def topologyFatalProp (db : List Rec) : Prop :=
  ((∃ t, bus_lines_and_stops db = .ok t)
      ↔ ∀ b ∈ busIds db, cntS db b = 1 ∧ cntF db b = 1)
  ∧ ((∃ b, b ∈ busIds db ∧ ¬(cntS db b = 1 ∧ cntF db b = 1))
      → ∃ b', bus_lines_and_stops db = .error b'
          ∧ ∃ lt, (b', lt) ∈ scanGo [] db ∧ lineOk lt = false)

/-- A line with two records of stop type `"S"` and none of stop type
`"F"` (§8's fatal-topology example). -/
def topoBadExample : List Rec :=
  [⟨128, 1, "Fifth Avenue", 2, "S", "08:00"⟩,
   ⟨128, 2, "Sesame Street", 0, "S", "08:10"⟩]

/-- Records before the breaking record in the short-circuit example. -/
def scPrefix : List Rec := [⟨5, 1, "A Road", 2, "S", "08:00"⟩]

/-- The record whose processing makes line 5's start count reach 2. -/
def scBreaker : Rec := ⟨5, 2, "B Road", 3, "S", "08:10"⟩

/-- Records of another line that follow the break and are never
classified. -/
def scSuffix : List Rec := [⟨7, 1, "C Road", 2, "S", "09:00"⟩]

/-- The `other_stop_names` set of line `b` in the table (empty when the
line is absent). -/
def otherOf (t : Table) (b : Int) : List String :=
  ((alook t b).getD emptyTop).other_stop_names

/-- What claim C5 asserts of `check_start_final_transfer_stops` at a
dataset whose topology table is `t`: the function succeeds, its first
component collects the lines' start-name sets and its third their
final-name sets, and its second component contains exactly the names that
lie in the full stop-name sets (start ∪ final ∪ other) of two distinct
lines. -/
def transferSpecProp (db : List Rec) (t : Table) : Prop :=
  ∃ st tr fi, check_start_final_transfer_stops db = .ok (st, tr, fi)
    ∧ (∀ n, n ∈ st ↔ ∃ p, p ∈ t ∧ n ∈ p.2.start_stop_names)
    ∧ (∀ n, n ∈ fi ↔ ∃ p, p ∈ t ∧ n ∈ p.2.final_stop_names)
    ∧ (∀ n, n ∈ tr ↔ ∃ p q, p ∈ t ∧ q ∈ t ∧ p.1 ≠ q.1
        ∧ n ∈ fullNames p.2 ∧ n ∈ fullNames q.2)

/-- §8's transfer example: line 1 runs X → Central → Y, line 2 runs
Central → Z, so "Central Street" is shared by both lines. -/
def transferExample : List Rec :=
  [⟨1, 1, "X Road", 2, "S", "08:00"⟩,
   ⟨1, 2, "Central Street", 3, "", "08:10"⟩,
   ⟨1, 3, "Y Road", 0, "F", "08:20"⟩,
   ⟨2, 1, "Central Street", 2, "S", "09:00"⟩,
   ⟨2, 2, "Z Road", 0, "F", "09:10"⟩]

/-- Two topologically valid lines sharing the on-demand stop
"Central Street". -/
def onDemandExample : List Rec :=
  [⟨1, 1, "X Road", 2, "S", "08:00"⟩,
   ⟨1, 2, "Central Street", 3, "O", "08:10"⟩,
   ⟨1, 3, "Y Road", 0, "F", "08:20"⟩,
   ⟨2, 1, "W Road", 2, "S", "09:00"⟩,
   ⟨2, 2, "Central Street", 3, "O", "09:05"⟩,
   ⟨2, 3, "Z Road", 0, "F", "09:10"⟩]

/-- Line 1's on-demand record in `onDemandExample`. -/
def odRec1 : Rec := ⟨1, 2, "Central Street", 3, "O", "08:10"⟩

/-- Line 2's on-demand record in `onDemandExample`. -/
def odRec2 : Rec := ⟨2, 2, "Central Street", 3, "O", "09:05"⟩

/-! ### Association-list lemmas -/

theorem alook_aset_self {α β : Type} [DecidableEq α]
    (l : List (α × β)) (k : α) (v : β) : alook (aset l k v) k = some v := by
  induction l with
  | nil => simp [aset, alook]
  | cons hd tl ih =>
    by_cases h : hd.1 = k <;> simp [aset, alook, h, ih]

theorem alook_aset_ne {α β : Type} [DecidableEq α]
    (l : List (α × β)) (k : α) (v : β) (b : α) (hb : b ≠ k) :
    alook (aset l k v) b = alook l b := by
  have hkb : ¬(k = b) := fun h => hb h.symm
  induction l with
  | nil => simp [aset, alook, hkb]
  | cons hd tl ih =>
    by_cases h : hd.1 = k
    · simp [aset, alook, h, hkb]
    · by_cases h2 : hd.1 = b <;> simp [aset, alook, h, h2, hb, hkb, ih]

/-! ### `lineGo` lemmas -/

theorem lineGo_true (tracked : Option String) (diags : List (Int × String)) :
    ∀ l : List Rec, lineGo true tracked diags l = (true, tracked, diags)
  | [] => rfl
  | _ :: rest => lineGo_true tracked diags rest

theorem lineGo_one_diag (l : List Rec) :
    ∀ tracked : Option String, (lineGo false tracked [] l).1 = true →
      ((lineGo false tracked [] l).2.2).length = 1 := by
  induction l with
  | nil => intro tracked h; exact absurd h (by simp [lineGo])
  | cons e rest ih =>
    intro tracked h
    match htr : tracked with
    | none =>
      rw [show lineGo false none [] (e :: rest)
            = lineGo false (some e.a_time) [] rest from rfl] at h ⊢
      exact ih _ h
    | some t =>
      by_cases hle : t ≤ e.a_time
      · rw [show lineGo false (some t) [] (e :: rest)
              = lineGo false (some e.a_time) [] rest by simp [lineGo, hle]] at h ⊢
        exact ih _ h
      · rw [show lineGo false (some t) [] (e :: rest)
              = lineGo true (some t) [(e.bus_id, e.stop_name)] rest by
            simp [lineGo, hle]] at h ⊢
        rw [lineGo_true]
        rfl

/-! ### One step of `check_atime`, projected to one line -/

theorem aproj_atimeStep_ne (s : AtimeState) (e : Rec) (b : Int)
    (hne : e.bus_id ≠ b) : aproj (atimeStep s e) b = aproj s b := by
  unfold atimeStep
  by_cases h1 : e.bus_id ∈ s.blacklist
  · simp [h1]
  · rw [if_neg h1]
    match h2 : alook s.times e.bus_id with
    | none =>
      simp [aproj, alook_aset_ne _ _ _ _ (Ne.symm hne)]
    | some t =>
      by_cases h3 : t ≤ e.a_time
      · simp [h3, aproj, alook_aset_ne _ _ _ _ (Ne.symm hne)]
      · simp [h3, aproj, List.mem_append, List.filter_append, hne,
          Ne.symm hne]

theorem aproj_atimeStep_self (s : AtimeState) (e : Rec) (b : Int)
    (hb : e.bus_id = b) (l : List Rec) :
    lineGo (aproj s b).1 (aproj s b).2.1 (aproj s b).2.2 (e :: l)
      = lineGo (aproj (atimeStep s e) b).1 (aproj (atimeStep s e) b).2.1
          (aproj (atimeStep s e) b).2.2 l := by
  subst hb
  by_cases h1 : e.bus_id ∈ s.blacklist
  · have hstep : atimeStep s e = s := by simp [atimeStep, h1]
    rw [hstep,
      show aproj s e.bus_id
          = (true, (aproj s e.bus_id).2.1, (aproj s e.bus_id).2.2) from
        Prod.ext (by simp [aproj, h1]) rfl]
    rfl
  · match h2 : alook s.times e.bus_id with
    | none =>
      have hstep : atimeStep s e
          = { s with times := aset s.times e.bus_id e.a_time } := by
        simp [atimeStep, h1, h2]
      rw [hstep,
        show aproj s e.bus_id
            = (false, none, (aproj s e.bus_id).2.2) from
          Prod.ext (by simp [aproj, h1]) (Prod.ext (by simp [aproj, h2]) rfl),
        show aproj { s with times := aset s.times e.bus_id e.a_time } e.bus_id
            = (false, some e.a_time, (aproj s e.bus_id).2.2) from
          Prod.ext (by simp [aproj, h1])
            (Prod.ext (by simp [aproj, alook_aset_self]) (by simp [aproj]))]
      rfl
    | some t =>
      by_cases h3 : t ≤ e.a_time
      · have hstep : atimeStep s e
            = { s with times := aset s.times e.bus_id e.a_time } := by
          simp [atimeStep, h1, h2, h3]
        rw [hstep,
          show aproj s e.bus_id
              = (false, some t, (aproj s e.bus_id).2.2) from
            Prod.ext (by simp [aproj, h1])
              (Prod.ext (by simp [aproj, h2]) rfl),
          show aproj { s with times := aset s.times e.bus_id e.a_time }
                e.bus_id
              = (false, some e.a_time, (aproj s e.bus_id).2.2) from
            Prod.ext (by simp [aproj, h1])
              (Prod.ext (by simp [aproj, alook_aset_self]) (by simp [aproj]))]
        simp [lineGo, h3]
      · have hstep : atimeStep s e
            = { s with blacklist := s.blacklist ++ [e.bus_id],
                       diags := s.diags ++ [(e.bus_id, e.stop_name)] } := by
          simp [atimeStep, h1, h2, h3]
        rw [hstep,
          show aproj s e.bus_id
              = (false, some t, (aproj s e.bus_id).2.2) from
            Prod.ext (by simp [aproj, h1])
              (Prod.ext (by simp [aproj, h2]) rfl),
          show aproj { s with blacklist := s.blacklist ++ [e.bus_id],
                              diags := s.diags ++ [(e.bus_id, e.stop_name)] }
                e.bus_id
              = (true, some t,
                  (aproj s e.bus_id).2.2 ++ [(e.bus_id, e.stop_name)]) from
            Prod.ext (by simp [aproj, List.mem_append])
              (Prod.ext (by simp [aproj, h2])
                (by simp [aproj, List.filter_append]))]
        simp [lineGo, h3]

/-- The chronology fold, observed at one line, is the per-line reference
run on that line's records alone. -/
theorem atime_fold_proj (db : List Rec) :
    ∀ (s : AtimeState) (b : Int),
      aproj (db.foldl atimeStep s) b
        = lineGo (aproj s b).1 (aproj s b).2.1 (aproj s b).2.2
            (db.filter fun e => decide (e.bus_id = b)) := by
  induction db with
  | nil => intro s b; simp [lineGo]
  | cons e rest ih =>
    intro s b
    rw [List.foldl_cons, ih]
    by_cases hb : e.bus_id = b
    · rw [show (e :: rest).filter (fun e => decide (e.bus_id = b))
            = e :: rest.filter (fun e => decide (e.bus_id = b)) by
          simp [List.filter_cons, hb]]
      rw [aproj_atimeStep_self s e b hb]
    · rw [show (e :: rest).filter (fun e => decide (e.bus_id = b))
            = rest.filter (fun e => decide (e.bus_id = b)) by
          simp [List.filter_cons, hb]]
      rw [aproj_atimeStep_ne s e b hb]

/-- C4: in `check_atime`, for every line: the first record seen for that
line only initializes the tracked time; each later record with `a_time`
(string-compared) at least the tracked time updates it; the first record
with a strictly smaller `a_time` adds the line to the blacklist and prints
exactly one diagnostic naming the line and that record's stop; a
blacklisted line's subsequent records are skipped; records of one line
never affect another line's outcome; and `OK` is printed iff no line was
ever blacklisted.  (`lineGo` is that per-line behaviour; the theorem says
`check_atime`, observed at line `b`, is `lineGo` run on just `b`'s
records.) -/
theorem check_atime_per_line (db : List Rec) (b : Int) :
    atimePerLineProp db b := by
  have h : aproj (check_atime db) b
      = lineGo (aproj ⟨[], [], []⟩ b).1 (aproj ⟨[], [], []⟩ b).2.1
          (aproj ⟨[], [], []⟩ b).2.2
          (db.filter fun e => decide (e.bus_id = b)) :=
    atime_fold_proj db ⟨[], [], []⟩ b
  rw [show aproj (⟨[], [], []⟩ : AtimeState) b
        = (false, none, []) by simp [aproj, alook]] at h
  have h1 := congrArg (fun p => p.1) h
  have h2 := congrArg (fun p => p.2.1) h
  have h3 := congrArg (fun p => p.2.2) h
  simp only [aproj] at h1 h2 h3
  refine ⟨?_, h2, h3, lineGo_one_diag _ none, ?_⟩
  · rw [← h1]
    exact decide_eq_true_iff.symm
  · simp [atime_ok_printed, List.isEmpty_iff]

/-- Witness for C4: the §8 chronology example, observed at line 1 (which
gets blacklisted at its third record) — obtained by applying
`check_atime_per_line` at that concrete input. -/
theorem check_atime_per_line_witness : atimePerLineProp atimeExample 1 :=
  check_atime_per_line atimeExample 1

/-! ### Lookup lemmas for the topology table -/

theorem alook_eq_none_iff {α β : Type} [DecidableEq α]
    (l : List (α × β)) (b : α) :
    alook l b = none ↔ b ∉ l.map Prod.fst := by
  induction l with
  | nil => simp [alook]
  | cons hd tl ih =>
    by_cases h : hd.1 = b
    · simp [alook, h]
    · simp [alook, h, ih, Ne.symm h]

theorem alook_some_mem {α β : Type} [DecidableEq α]
    {l : List (α × β)} {b : α} {w : β} (h : alook l b = some w) :
    (b, w) ∈ l := by
  induction l with
  | nil => simp [alook] at h
  | cons hd tl ih =>
    by_cases hh : hd.1 = b
    · rw [alook, if_pos hh] at h
      have hw : hd.2 = w := Option.some_injective _ h
      rw [show (b, w) = hd from Prod.ext hh.symm hw.symm]
      exact List.mem_cons_self hd tl
    · rw [alook, if_neg hh] at h
      exact List.mem_cons_of_mem _ (ih h)

theorem mem_alook_of_nodup {α β : Type} [DecidableEq α]
    {l : List (α × β)} (hnd : (l.map Prod.fst).Nodup) {b : α} {w : β}
    (hm : (b, w) ∈ l) : alook l b = some w := by
  induction l with
  | nil => simp at hm
  | cons hd tl ih =>
    rw [List.map_cons, List.nodup_cons] at hnd
    rcases List.mem_cons.mp hm with h | h
    · rw [alook, ← h, if_pos rfl]
    · have hne : hd.1 ≠ b := by
        intro he
        exact hnd.1 (he ▸ (List.mem_map.mpr ⟨(b, w), h, rfl⟩))
      rw [alook, if_neg hne]
      exact ih hnd.2 h

theorem alook_append_single {α β : Type} [DecidableEq α]
    (l : List (α × β)) (k : α) (v : β) (b : α) (h : alook l b = none) :
    alook (l ++ [(k, v)]) b = if k = b then some v else none := by
  induction l with
  | nil => simp [alook]
  | cons hd tl ih =>
    by_cases hh : hd.1 = b
    · rw [alook, if_pos hh] at h; cases h
    · rw [alook, if_neg hh] at h
      rw [List.cons_append, alook, if_neg hh]
      exact ih h

theorem alook_append_of_some {α β : Type} [DecidableEq α]
    {l : List (α × β)} {b : α} {w : β} (tl : List (α × β))
    (h : alook l b = some w) : alook (l ++ tl) b = some w := by
  induction l with
  | nil => simp [alook] at h
  | cons hd rest ih =>
    by_cases hh : hd.1 = b
    · rw [alook, if_pos hh] at h
      rw [List.cons_append, alook, if_pos hh]
      exact h
    · rw [alook, if_neg hh] at h
      rw [List.cons_append, alook, if_neg hh]
      exact ih h

theorem alook_tensure_self (t : Table) (b : Int) :
    alook (tensure t b) b = some ((alook t b).getD emptyTop) := by
  unfold tensure
  cases h : alook t b with
  | some w => simp [h]
  | none => simp [h, alook_append_single t b emptyTop b h]

theorem alook_tensure_ne (t : Table) (b b' : Int) (h : b' ≠ b) :
    alook (tensure t b) b' = alook t b' := by
  unfold tensure
  cases hl : alook t b with
  | some w => simp [hl]
  | none =>
    simp only [hl, Option.isSome_none, Bool.false_eq_true, if_false]
    cases hl' : alook t b' with
    | some w => exact alook_append_of_some _ hl'
    | none => rw [alook_append_single t b emptyTop b' hl', if_neg (Ne.symm h)]

theorem alook_tmodify_self (t : Table) (b : Int) (f : LineTop → LineTop) :
    alook (tmodify t b f) b = (alook t b).map f := by
  induction t with
  | nil => simp [tmodify, alook]
  | cons hd tl ih =>
    by_cases hh : hd.1 = b
    · simp [tmodify, alook, hh]
    · simp [tmodify, alook, hh, ih]

theorem alook_tmodify_ne (t : Table) (b : Int) (f : LineTop → LineTop)
    (b' : Int) (h : b' ≠ b) :
    alook (tmodify t b f) b' = alook t b' := by
  induction t with
  | nil => simp [tmodify, alook]
  | cons hd tl ih =>
    by_cases hh : hd.1 = b
    · simp [tmodify, alook, hh, Ne.symm h, ih]
    · by_cases hh' : hd.1 = b' <;> simp [tmodify, alook, hh, hh', h, ih]

theorem alook_stepTop_self (t : Table) (e : Rec) :
    alook (stepTop t e) e.bus_id
      = some (applyRec e ((alook t e.bus_id).getD emptyTop)) := by
  unfold stepTop
  rw [alook_tmodify_self, alook_tensure_self]
  rfl

theorem alook_stepTop_ne (t : Table) (e : Rec) (b : Int)
    (h : b ≠ e.bus_id) : alook (stepTop t e) b = alook t b := by
  unfold stepTop
  rw [alook_tmodify_ne _ _ _ _ h, alook_tensure_ne _ _ _ h]

/-! ### Keys of the topology table stay duplicate-free -/

theorem keys_tmodify (t : Table) (b : Int) (f : LineTop → LineTop) :
    (tmodify t b f).map Prod.fst = t.map Prod.fst := by
  induction t with
  | nil => rfl
  | cons hd tl ih =>
    by_cases hh : hd.1 = b <;> simp [tmodify, hh, ih]

theorem keys_stepTop (t : Table) (e : Rec) :
    (stepTop t e).map Prod.fst
      = if (alook t e.bus_id).isSome then t.map Prod.fst
        else t.map Prod.fst ++ [e.bus_id] := by
  unfold stepTop tensure
  cases h : alook t e.bus_id with
  | some w => simp [h, keys_tmodify]
  | none => simp [h, keys_tmodify]

theorem nodup_keys_stepTop {t : Table} (hnd : (t.map Prod.fst).Nodup)
    (e : Rec) : ((stepTop t e).map Prod.fst).Nodup := by
  rw [keys_stepTop]
  cases h : alook t e.bus_id with
  | some w => simpa [h] using hnd
  | none =>
    have hmem : e.bus_id ∉ t.map Prod.fst := (alook_eq_none_iff t _).mp h
    simp only [h, Option.isSome_none, Bool.false_eq_true, if_false]
    rw [List.nodup_append]
    exact ⟨hnd, List.nodup_singleton _, by simpa using hmem⟩

theorem nodup_keys_foldl (db : List Rec) :
    ∀ t : Table, (t.map Prod.fst).Nodup
      → ((db.foldl stepTop t).map Prod.fst).Nodup := by
  induction db with
  | nil => intro t h; exact h
  | cons e rest ih =>
    intro t h
    exact ih (stepTop t e) (nodup_keys_stepTop h e)

/-! ### Counts carried by the table versus counts over the records -/

theorem applyRec_start_count (e : Rec) (lt : LineTop) :
    (applyRec e lt).start_count
      = lt.start_count + (if e.stop_type = "S" then 1 else 0) := by
  unfold applyRec
  by_cases hS : e.stop_type = "S"
  · simp [hS]
  · by_cases hF : e.stop_type = "F" <;> simp [hS, hF]

theorem applyRec_final_count (e : Rec) (lt : LineTop) :
    (applyRec e lt).final_count
      = lt.final_count + (if e.stop_type = "F" then 1 else 0) := by
  unfold applyRec
  by_cases hS : e.stop_type = "S"
  · simp [hS, show ¬ (e.stop_type = "F") by rw [hS]; decide]
  · by_cases hF : e.stop_type = "F" <;> simp [hS, hF]

theorem pcS_stepTop (t : Table) (e : Rec) (b : Int) :
    pcS (stepTop t e) b
      = pcS t b
          + (if b = e.bus_id ∧ e.stop_type = "S" then 1 else 0) := by
  by_cases hb : b = e.bus_id
  · subst hb
    rw [pcS, alook_stepTop_self, Option.getD_some, applyRec_start_count]
    by_cases hS : e.stop_type = "S" <;> simp [hS, pcS]
  · rw [pcS, alook_stepTop_ne _ _ _ hb]
    simp [hb, pcS]

theorem pcF_stepTop (t : Table) (e : Rec) (b : Int) :
    pcF (stepTop t e) b
      = pcF t b
          + (if b = e.bus_id ∧ e.stop_type = "F" then 1 else 0) := by
  by_cases hb : b = e.bus_id
  · subst hb
    rw [pcF, alook_stepTop_self, Option.getD_some, applyRec_final_count]
    by_cases hF : e.stop_type = "F" <;> simp [hF, pcF]
  · rw [pcF, alook_stepTop_ne _ _ _ hb]
    simp [hb, pcF]

theorem cntS_cons (e : Rec) (rest : List Rec) (b : Int) :
    cntS (e :: rest) b
      = (if b = e.bus_id ∧ e.stop_type = "S" then 1 else 0)
          + cntS rest b := by
  rw [cntS, List.filter_cons]
  by_cases h : e.bus_id = b ∧ e.stop_type = "S"
  · simp [h.1, h.2, cntS, Nat.add_comm]
  · have h' : ¬(b = e.bus_id ∧ e.stop_type = "S") := by
      intro hc; exact h ⟨hc.1.symm, hc.2⟩
    simp [h, h', cntS]

theorem cntF_cons (e : Rec) (rest : List Rec) (b : Int) :
    cntF (e :: rest) b
      = (if b = e.bus_id ∧ e.stop_type = "F" then 1 else 0)
          + cntF rest b := by
  rw [cntF, List.filter_cons]
  by_cases h : e.bus_id = b ∧ e.stop_type = "F"
  · simp [h.1, h.2, cntF, Nat.add_comm]
  · have h' : ¬(b = e.bus_id ∧ e.stop_type = "F") := by
      intro hc; exact h ⟨hc.1.symm, hc.2⟩
    simp [h, h', cntF]

theorem foldl_pcS (db : List Rec) :
    ∀ (t : Table) (b : Int),
      pcS (db.foldl stepTop t) b = pcS t b + cntS db b := by
  induction db with
  | nil => intro t b; simp [cntS]
  | cons e rest ih =>
    intro t b
    rw [List.foldl_cons, ih, pcS_stepTop, cntS_cons]
    omega

theorem foldl_pcF (db : List Rec) :
    ∀ (t : Table) (b : Int),
      pcF (db.foldl stepTop t) b = pcF t b + cntF db b := by
  induction db with
  | nil => intro t b; simp [cntF]
  | cons e rest ih =>
    intro t b
    rw [List.foldl_cons, ih, pcF_stepTop, cntF_cons]
    omega

theorem alook_foldl_none (db : List Rec) :
    ∀ (t : Table) (b : Int),
      alook (db.foldl stepTop t) b = none
        ↔ alook t b = none ∧ b ∉ busIds db := by
  induction db with
  | nil => intro t b; simp [busIds]
  | cons e rest ih =>
    intro t b
    rw [List.foldl_cons, ih]
    constructor
    · rintro ⟨hstep, hrest⟩
      by_cases hb : b = e.bus_id
      · subst hb
        rw [alook_stepTop_self] at hstep
        cases hstep
      · rw [alook_stepTop_ne _ _ _ hb] at hstep
        exact ⟨hstep, by simpa [busIds, hb] using hrest⟩
    · rintro ⟨ht, hmem⟩
      have hb : b ≠ e.bus_id := by
        intro hb; exact hmem (by simp [busIds, hb])
      refine ⟨by rwa [alook_stepTop_ne _ _ _ hb], ?_⟩
      intro hr
      exact hmem (by simp [busIds] at hr ⊢; exact Or.inr hr)

/-! ### The early `break` of the scan loop -/

theorem brokeAt_eq (t : Table) (b : Int) :
    brokeAt t b = (decide (1 < pcS t b) || decide (1 < pcF t b)) := by
  cases h : alook t b with
  | some lt => simp [brokeAt, pcS, pcF, h]
  | none => simp [brokeAt, pcS, pcF, h, emptyTop]

theorem scanGo_eq_foldl (db : List Rec) :
    ∀ t : Table, brokeDuring t db = false
      → scanGo t db = db.foldl stepTop t := by
  induction db with
  | nil => intro t _; rfl
  | cons e rest ih =>
    intro t h
    rw [brokeDuring] at h
    simp only [Bool.or_eq_false_iff] at h
    rw [scanGo, if_neg (by simp [h.1]), List.foldl_cons]
    exact ih _ h.2

theorem broke_big (db : List Rec) :
    ∀ t : Table, brokeDuring t db = true
      → ∃ b, 1 < pcS (scanGo t db) b ∨ 1 < pcF (scanGo t db) b := by
  induction db with
  | nil => intro t h; cases h
  | cons e rest ih =>
    intro t h
    rw [brokeDuring] at h
    cases hba : brokeAt (stepTop t e) e.bus_id with
    | true =>
      refine ⟨e.bus_id, ?_⟩
      rw [scanGo, if_pos hba]
      rw [brokeAt_eq] at hba
      rcases Bool.or_eq_true_iff.mp hba with hx | hx
      · exact Or.inl (of_decide_eq_true hx)
      · exact Or.inr (of_decide_eq_true hx)
    | false =>
      rw [hba, Bool.false_or] at h
      rw [scanGo, if_neg (by simp [hba])]
      exact ih _ h

theorem not_broke_of_bounds (db : List Rec) :
    ∀ t : Table,
      (∀ b, pcS t b + cntS db b ≤ 1) → (∀ b, pcF t b + cntF db b ≤ 1)
      → brokeDuring t db = false := by
  induction db with
  | nil => intro t _ _; rfl
  | cons e rest ih =>
    intro t hS hF
    rw [brokeDuring]
    have hS' : ∀ b, pcS (stepTop t e) b + cntS rest b ≤ 1 := by
      intro b
      have := hS b
      rw [cntS_cons] at this
      rw [pcS_stepTop]
      omega
    have hF' : ∀ b, pcF (stepTop t e) b + cntF rest b ≤ 1 := by
      intro b
      have := hF b
      rw [cntF_cons] at this
      rw [pcF_stepTop]
      omega
    have hba : brokeAt (stepTop t e) e.bus_id = false := by
      rw [brokeAt_eq]
      have h1 := hS' e.bus_id
      have h2 := hF' e.bus_id
      simp only [Bool.or_eq_false_iff, decide_eq_false_iff_not]
      omega
    rw [hba, Bool.false_or]
    exact ih _ hS' hF'

/-- When no line of the full dataset over-counts, the scan never breaks. -/
theorem not_broke_of_full_counts (db : List Rec)
    (h : ∀ b, cntS db b ≤ 1 ∧ cntF db b ≤ 1) :
    brokeDuring [] db = false := by
  refine not_broke_of_bounds db []
    (fun b => ?_) (fun b => ?_)
  · have := (h b).1
    simp [pcS, alook, emptyTop]
    omega
  · have := (h b).2
    simp [pcF, alook, emptyTop]
    omega

/-- A line outside the dataset has zero counts. -/
theorem cntS_eq_zero_of_not_mem (db : List Rec) (b : Int)
    (h : b ∉ busIds db) : cntS db b = 0 := by
  rw [cntS, List.length_eq_zero, List.filter_eq_nil_iff]
  intro e he
  simp only [decide_eq_true_eq, not_and]
  intro hb
  exact absurd (List.mem_map.mpr ⟨e, he, hb⟩) h

theorem cntF_eq_zero_of_not_mem (db : List Rec) (b : Int)
    (h : b ∉ busIds db) : cntF db b = 0 := by
  rw [cntF, List.length_eq_zero, List.filter_eq_nil_iff]
  intro e he
  simp only [decide_eq_true_eq, not_and]
  intro hb
  exact absurd (List.mem_map.mpr ⟨e, he, hb⟩) h

/-! ### The fatal topology check -/

theorem bus_lines_eq (db : List Rec) :
    bus_lines_and_stops db
      = match firstViolation (scanGo [] db) with
        | some b => .error b
        | none => .ok (scanGo [] db) := rfl

theorem bus_lines_ok_iff (db : List Rec) :
    (∃ t, bus_lines_and_stops db = .ok t)
      ↔ ∀ b ∈ busIds db, cntS db b = 1 ∧ cntF db b = 1 := by
  constructor
  · rintro ⟨t, ht⟩ b hb
    have hfv : firstViolation (scanGo [] db) = none := by
      rw [bus_lines_eq] at ht
      cases hfv : firstViolation (scanGo [] db) with
      | some b' => rw [hfv] at ht; cases ht
      | none => rfl
    have hall : ∀ p ∈ scanGo [] db, lineOk p.2 = true := by
      intro p hp
      have hfind : (scanGo [] db).find? (fun p => !lineOk p.2) = none := by
        cases hf : (scanGo [] db).find? (fun p => !lineOk p.2) with
        | none => rfl
        | some q => rw [firstViolation, hf] at hfv; cases hfv
      have := List.find?_eq_none.mp hfind p hp
      simpa using this
    have hnb : brokeDuring [] db = false := by
      cases hbd : brokeDuring [] db with
      | false => rfl
      | true =>
        exfalso
        obtain ⟨b0, hpc⟩ := broke_big db [] hbd
        cases halo : alook (scanGo [] db) b0 with
        | none =>
          simp only [pcS, pcF, halo, Option.getD_none] at hpc
          simp [emptyTop] at hpc
        | some lt =>
          have hok := hall _ (alook_some_mem halo)
          simp only [pcS, pcF, halo, Option.getD_some] at hpc
          simp only [lineOk, Bool.and_eq_true, decide_eq_true_eq] at hok
          omega
    have hsf : scanGo [] db = db.foldl stepTop [] := scanGo_eq_foldl db [] hnb
    cases halo : alook (db.foldl stepTop []) b with
    | none =>
      exfalso
      rw [alook_foldl_none] at halo
      exact halo.2 hb
    | some lt =>
      have hmem := alook_some_mem halo
      rw [← hsf] at hmem
      have hok := hall _ hmem
      simp only [lineOk, Bool.and_eq_true, decide_eq_true_eq] at hok
      have h1 := foldl_pcS db [] b
      have h2 := foldl_pcF db [] b
      simp only [pcS, pcF, halo, alook, Option.getD_some, Option.getD_none,
        emptyTop] at h1 h2
      constructor
      · omega
      · omega
  · intro hall
    have hb1 : ∀ b, cntS db b ≤ 1 ∧ cntF db b ≤ 1 := by
      intro b
      by_cases hb : b ∈ busIds db
      · have := hall b hb
        omega
      · rw [cntS_eq_zero_of_not_mem db b hb, cntF_eq_zero_of_not_mem db b hb]
        omega
    have hnb := not_broke_of_full_counts db hb1
    have hsf := scanGo_eq_foldl db [] hnb
    have hnd : ((db.foldl stepTop []).map Prod.fst).Nodup :=
      nodup_keys_foldl db [] (by simp)
    have hfind : ((scanGo [] db).find? fun p => !lineOk p.2) = none := by
      rw [hsf, List.find?_eq_none]
      intro p hp
      have halo : alook (db.foldl stepTop []) p.1 = some p.2 :=
        mem_alook_of_nodup hnd (by rwa [Prod.mk.eta])
      have hbmem : p.1 ∈ busIds db := by
        by_contra hq
        rw [(alook_foldl_none db [] p.1).mpr ⟨rfl, hq⟩] at halo
        cases halo
      have hc := hall p.1 hbmem
      have h1 := foldl_pcS db [] p.1
      have h2 := foldl_pcF db [] p.1
      simp only [pcS, pcF, halo, alook, Option.getD_some, Option.getD_none,
        emptyTop] at h1 h2
      simp only [lineOk, Bool.not_eq_true', Bool.and_eq_false_iff,
        decide_eq_false_iff_not]
      omega
    refine ⟨scanGo [] db, ?_⟩
    rw [bus_lines_eq, firstViolation, hfind]
    rfl

/-- C2: `bus_lines_and_stops` returns the per-line topology mapping iff
every line of the dataset has exactly one start and exactly one final
record; when some line violates this, it prints a message naming a
violating line of the computed table and terminates with exit status 1
(the `.error` case of the embedding). -/
theorem topology_fatal (db : List Rec) : topologyFatalProp db := by
  refine ⟨bus_lines_ok_iff db, ?_⟩
  rintro ⟨b, hb, hviol⟩
  have hnotok : ¬∃ t, bus_lines_and_stops db = .ok t := by
    rw [bus_lines_ok_iff]
    intro hall
    exact hviol (hall b hb)
  cases hfv : firstViolation (scanGo [] db) with
  | none =>
    exact absurd ⟨scanGo [] db, by rw [bus_lines_eq, hfv]⟩ hnotok
  | some b' =>
    refine ⟨b', by rw [bus_lines_eq, hfv], ?_⟩
    rw [firstViolation] at hfv
    cases hfind : (scanGo [] db).find? (fun p => !lineOk p.2) with
    | none => rw [hfind] at hfv; cases hfv
    | some p =>
      rw [hfind] at hfv
      have hp1 : p.1 = b' := by simpa using hfv
      refine ⟨p.2, ?_, ?_⟩
      · rw [← hp1, Prod.mk.eta]
        exact List.mem_of_find?_eq_some hfind
      · have := List.find?_some hfind
        simpa using this

/-- Witness for C2: on §8's example (one line with two `"S"` records and
no `"F"`), the check is fatal, obtained by applying `topology_fatal`. -/
theorem topology_fatal_witness :
    (128 ∈ busIds topoBadExample
        ∧ ¬(cntS topoBadExample 128 = 1 ∧ cntF topoBadExample 128 = 1))
      ∧ (∃ b', bus_lines_and_stops topoBadExample = .error b'
          ∧ ∃ lt, (b', lt) ∈ scanGo [] topoBadExample
              ∧ lineOk lt = false) :=
  ⟨by decide, (topology_fatal topoBadExample).2 ⟨128, by decide, by decide⟩⟩

/-! ### The global short-circuit -/

theorem scan_short_circuit_aux (db2 : List Rec) (e : Rec)
    (db1 : List Rec) :
    ∀ t : Table, brokeDuring t db1 = false
      → brokeAt (stepTop (scanGo t db1) e) e.bus_id = true
      → scanGo t (db1 ++ e :: db2) = scanGo t (db1 ++ [e]) := by
  induction db1 with
  | nil =>
    intro t _ h2
    simp only [scanGo] at h2
    simp only [List.nil_append]
    rw [scanGo, scanGo, if_pos h2, if_pos h2]
  | cons f rest ih =>
    intro t h1 h2
    rw [brokeDuring] at h1
    simp only [Bool.or_eq_false_iff] at h1
    have hsc : scanGo t (f :: rest) = scanGo (stepTop t f) rest := by
      rw [scanGo, if_neg (by simp [h1.1])]
    rw [hsc] at h2
    rw [List.cons_append, List.cons_append, scanGo,
      if_neg (by simp [h1.1]), scanGo, if_neg (by simp [h1.1])]
    exact ih (stepTop t f) h1.2 h2

/-- C3: as soon as the record just processed pushes its line's start or
final count above 1, the scan over the whole dataset stops: the records
after that point are never classified, whatever line they belong to. -/
theorem scan_short_circuit (db1 db2 : List Rec) (e : Rec)
    (h1 : brokeDuring [] db1 = false)
    (h2 : brokeAt (stepTop (scanGo [] db1) e) e.bus_id = true) :
    scanGo [] (db1 ++ e :: db2) = scanGo [] (db1 ++ [e]) :=
  scan_short_circuit_aux db2 e db1 [] h1 h2

/-- Witness for C3: a duplicate start record for line 5 halts the scan,
so a following record of line 7 is never classified — obtained by applying
`scan_short_circuit` at that concrete input. -/
theorem scan_short_circuit_witness :
    brokeDuring [] scPrefix = false
      ∧ brokeAt (stepTop (scanGo [] scPrefix) scBreaker)
          scBreaker.bus_id = true
      ∧ scanGo [] (scPrefix ++ scBreaker :: scSuffix)
          = scanGo [] (scPrefix ++ [scBreaker]) :=
  ⟨by decide, by decide,
    scan_short_circuit scPrefix scSuffix scBreaker (by decide) (by decide)⟩

/-! ### A break always ends in the fatal exit (C9) -/

theorem broke_gives_error (db : List Rec)
    (h : brokeDuring [] db = true) :
    ∃ b, bus_lines_and_stops db = .error b := by
  obtain ⟨b0, hpc⟩ := broke_big db [] h
  cases halo : alook (scanGo [] db) b0 with
  | none =>
    exfalso
    simp only [pcS, pcF, halo, Option.getD_none] at hpc
    simp [emptyTop] at hpc
  | some lt =>
    have hmem := alook_some_mem halo
    have hlt : lineOk lt = false := by
      simp only [pcS, pcF, halo, Option.getD_some] at hpc
      simp only [lineOk, Bool.and_eq_false_iff, decide_eq_false_iff_not]
      omega
    have hsome : ((scanGo [] db).find? fun p => !lineOk p.2).isSome := by
      rw [List.find?_isSome]
      exact ⟨(b0, lt), hmem, by simp [hlt]⟩
    cases hfind : (scanGo [] db).find? (fun p => !lineOk p.2) with
    | none => rw [hfind] at hsome; cases hsome
    | some p =>
      exact ⟨p.1, by rw [bus_lines_eq, firstViolation, hfind]; rfl⟩

/-- C9: whenever the scan's global short-circuit triggers, the function
never returns normally: the validation loop necessarily fails on some line
of the truncated table, so the program prints the fatal message and exits
with status 1. -/
theorem break_forces_exit (db : List Rec)
    (h : brokeDuring [] db = true) :
    ∃ b, bus_lines_and_stops db = .error b :=
  broke_gives_error db h

/-- Witness for C9: the duplicate-start example breaks the scan and indeed
exits fatally — obtained by applying `break_forces_exit`. -/
theorem break_forces_exit_witness :
    brokeDuring [] topoBadExample = true
      ∧ ∃ b, bus_lines_and_stops topoBadExample = .error b :=
  ⟨by decide, break_forces_exit topoBadExample (by decide)⟩

/-! ### Name-set lemmas -/

theorem mem_sinsert (n m : String) (l : List String) :
    n ∈ sinsert m l ↔ n = m ∨ n ∈ l := by
  unfold sinsert
  by_cases h : m ∈ l
  · rw [if_pos h]
    constructor
    · exact Or.inr
    · rintro (rfl | h2)
      exacts [h, h2]
  · rw [if_neg h, List.mem_append, List.mem_singleton]
    tauto

theorem mem_unionL (v : List String) :
    ∀ (u : List String) (n : String),
      n ∈ unionL u v ↔ n ∈ u ∨ n ∈ v := by
  induction v with
  | nil => intro u n; simp [unionL]
  | cons x xs ih =>
    intro u n
    rw [show unionL u (x :: xs) = unionL (sinsert x u) xs from rfl, ih,
      mem_sinsert, List.mem_cons]
    tauto

theorem mem_interL (u v : List String) (n : String) :
    n ∈ interL u v ↔ n ∈ u ∧ n ∈ v := by
  unfold interL
  rw [List.mem_filter]
  simp

theorem mem_fullNames (lt : LineTop) (n : String) :
    n ∈ fullNames lt
      ↔ n ∈ lt.start_stop_names ∨ n ∈ lt.final_stop_names
          ∨ n ∈ lt.other_stop_names := by
  unfold fullNames
  rw [mem_unionL, mem_unionL]
  tauto

theorem mem_foldl_unionL {α : Type} (f : α → List String) (l : List α) :
    ∀ (init : List String) (n : String),
      n ∈ l.foldl (fun acc x => unionL acc (f x)) init
        ↔ n ∈ init ∨ ∃ x, x ∈ l ∧ n ∈ f x := by
  induction l with
  | nil => intro init n; simp
  | cons y ys ih =>
    intro init n
    rw [List.foldl_cons, ih, mem_unionL]
    constructor
    · rintro ((h | h) | ⟨x, hx, hn⟩)
      · exact Or.inl h
      · exact Or.inr ⟨y, List.mem_cons_self y ys, h⟩
      · exact Or.inr ⟨x, List.mem_cons_of_mem _ hx, hn⟩
    · rintro (h | ⟨x, hx, hn⟩)
      · exact Or.inl (Or.inl h)
      · rcases List.mem_cons.mp hx with rfl | hx'
        · exact Or.inl (Or.inr hn)
        · exact Or.inr ⟨x, hx', hn⟩

/-! ### Pair-combination lemmas -/

theorem pairsOf_map {α β : Type} (f : α → β) (l : List α) :
    pairsOf (l.map f) = (pairsOf l).map fun pq => (f pq.1, f pq.2) := by
  induction l with
  | nil => rfl
  | cons x xs ih =>
    simp only [List.map_cons, pairsOf, ih, List.map_append, List.map_map]
    rfl

theorem mem_pairsOf_imp {α : Type} {a b : α} :
    ∀ {l : List α}, (a, b) ∈ pairsOf l → a ∈ l ∧ b ∈ l := by
  intro l
  induction l with
  | nil => intro h; cases h
  | cons x xs ih =>
    intro h
    rw [pairsOf, List.mem_append] at h
    rcases h with h | h
    · rw [List.mem_map] at h
      obtain ⟨y, hy, heq⟩ := h
      injection heq with h1 h2
      subst h1
      subst h2
      exact ⟨List.mem_cons_self _ _, List.mem_cons_of_mem _ hy⟩
    · obtain ⟨ha, hb⟩ := ih h
      exact ⟨List.mem_cons_of_mem _ ha, List.mem_cons_of_mem _ hb⟩

theorem keys_ne_of_mem_pairsOf :
    ∀ {t : Table}, (t.map Prod.fst).Nodup →
      ∀ {p q : Int × LineTop}, (p, q) ∈ pairsOf t → p.1 ≠ q.1 := by
  intro t
  induction t with
  | nil => intro _ p q h; cases h
  | cons x xs ih =>
    intro hnd p q h
    rw [List.map_cons, List.nodup_cons] at hnd
    rw [pairsOf, List.mem_append] at h
    rcases h with h | h
    · rw [List.mem_map] at h
      obtain ⟨y, hy, heq⟩ := h
      injection heq with h1 h2
      subst h1
      subst h2
      intro hc
      exact hnd.1 (List.mem_map.mpr ⟨y, hy, hc.symm⟩)
    · exact ih hnd.2 h

theorem mem_pairsOf_of_ne {α : Type} {a b : α} :
    ∀ {l : List α}, a ∈ l → b ∈ l → a ≠ b
      → (a, b) ∈ pairsOf l ∨ (b, a) ∈ pairsOf l := by
  intro l
  induction l with
  | nil => intro h _ _; cases h
  | cons x xs ih =>
    intro ha hb hne
    rcases List.mem_cons.mp ha with rfl | ha'
    · rcases List.mem_cons.mp hb with rfl | hb'
      · exact absurd rfl hne
      · left
        rw [pairsOf, List.mem_append]
        exact Or.inl (List.mem_map.mpr ⟨b, hb', rfl⟩)
    · rcases List.mem_cons.mp hb with rfl | hb'
      · right
        rw [pairsOf, List.mem_append]
        exact Or.inl (List.mem_map.mpr ⟨a, ha', rfl⟩)
      · rcases ih ha' hb' hne with h | h
        · left
          rw [pairsOf, List.mem_append]
          exact Or.inr h
        · right
          rw [pairsOf, List.mem_append]
          exact Or.inr h

/-! ### The transfer-stop derivation (C5) -/

theorem nodup_keys_scanGo (db : List Rec) :
    ∀ t : Table, (t.map Prod.fst).Nodup
      → ((scanGo t db).map Prod.fst).Nodup := by
  induction db with
  | nil => intro t h; exact h
  | cons e rest ih =>
    intro t h
    rw [scanGo]
    by_cases hb : brokeAt (stepTop t e) e.bus_id = true
    · rw [if_pos hb]
      exact nodup_keys_stepTop h e
    · rw [if_neg hb]
      exact ih _ (nodup_keys_stepTop h e)

theorem ok_table {db : List Rec} {t : Table}
    (h : bus_lines_and_stops db = .ok t) : t = scanGo [] db := by
  rw [bus_lines_eq] at h
  cases hfv : firstViolation (scanGo [] db) with
  | some b => rw [hfv] at h; cases h
  | none =>
    rw [hfv] at h
    exact (Except.ok.inj h).symm

theorem transfer_spec_aux (db : List Rec) (t : Table)
    (h : bus_lines_and_stops db = .ok t) : transferSpecProp db t := by
  have hnd : (t.map Prod.fst).Nodup := by
    rw [ok_table h]
    exact nodup_keys_scanGo db [] (by simp)
  refine ⟨t.foldl (fun acc p => unionL acc p.2.start_stop_names) [],
    (pairsOf (t.map fun p => fullNames p.2)).foldl
      (fun acc uv => unionL acc (interL uv.1 uv.2)) [],
    t.foldl (fun acc p => unionL acc p.2.final_stop_names) [],
    by simp only [check_start_final_transfer_stops, h], ?_, ?_, ?_⟩
  · intro n
    exact (mem_foldl_unionL (fun p : Int × LineTop => p.2.start_stop_names)
      t [] n).trans (by simp)
  · intro n
    exact (mem_foldl_unionL (fun p : Int × LineTop => p.2.final_stop_names)
      t [] n).trans (by simp)
  · intro n
    refine (mem_foldl_unionL
        (fun uv : List String × List String => interL uv.1 uv.2)
        (pairsOf (t.map fun p => fullNames p.2)) [] n).trans ?_
    rw [pairsOf_map]
    constructor
    · rintro (h0 | ⟨uv, huv, hn⟩)
      · cases h0
      · rw [List.mem_map] at huv
        obtain ⟨pq, hpq, rfl⟩ := huv
        rw [mem_interL] at hn
        have hpq' : (pq.1, pq.2) ∈ pairsOf t := by rwa [Prod.mk.eta]
        obtain ⟨hm1, hm2⟩ := mem_pairsOf_imp hpq'
        exact ⟨pq.1, pq.2, hm1, hm2, keys_ne_of_mem_pairsOf hnd hpq',
          hn.1, hn.2⟩
    · rintro ⟨p, q, hp, hq, hne, hnp, hnq⟩
      right
      have hpq : p ≠ q := fun hc => hne (by rw [hc])
      rcases mem_pairsOf_of_ne hp hq hpq with h0 | h0
      · exact ⟨(fullNames p.2, fullNames q.2),
          List.mem_map.mpr ⟨(p, q), h0, rfl⟩,
          (mem_interL _ _ _).mpr ⟨hnp, hnq⟩⟩
      · exact ⟨(fullNames q.2, fullNames p.2),
          List.mem_map.mpr ⟨(q, p), h0, rfl⟩,
          (mem_interL _ _ _).mpr ⟨hnq, hnp⟩⟩

/-- C5: when the topology check passes, the derived triple consists of the
union of the lines' start-name sets, the union over unordered pairs of
distinct lines of the intersections of their full stop-name sets, and the
union of the lines' final-name sets. -/
theorem transfer_spec (db : List Rec) (t : Table)
    (h : bus_lines_and_stops db = .ok t) : transferSpecProp db t :=
  transfer_spec_aux db t h

/-- Witness for C5: the "Central" example of §8 — the topology check
passes, the characterization holds by applying `transfer_spec`, and
"Central Street" (shared by the two lines) is in the transfer set. -/
theorem transfer_spec_witness :
    bus_lines_and_stops transferExample = .ok (scanGo [] transferExample)
      ∧ transferSpecProp transferExample (scanGo [] transferExample)
      ∧ ∃ st tr fi,
          check_start_final_transfer_stops transferExample
              = .ok (st, tr, fi)
            ∧ "Central Street" ∈ tr :=
  ⟨rfl, transfer_spec transferExample _ rfl, ⟨_, _, _, rfl, by decide⟩⟩

/-! ### Non-start, non-final records land in `other_stop_names` (C10) -/

theorem applyRec_other_mono (e : Rec) (lt : LineTop) (n : String)
    (h : n ∈ lt.other_stop_names) :
    n ∈ (applyRec e lt).other_stop_names := by
  unfold applyRec
  by_cases hS : e.stop_type = "S"
  · simpa [hS] using h
  · by_cases hF : e.stop_type = "F"
    · simpa [hS, hF] using h
    · simp only [hS, hF, if_false]
      exact (mem_sinsert _ _ _).mpr (Or.inr h)

theorem applyRec_other_self (e : Rec) (lt : LineTop)
    (hS : e.stop_type ≠ "S") (hF : e.stop_type ≠ "F") :
    e.stop_name ∈ (applyRec e lt).other_stop_names := by
  unfold applyRec
  simp only [hS, hF, if_false]
  exact (mem_sinsert _ _ _).mpr (Or.inl rfl)

theorem otherOf_stepTop_mono (t : Table) (e : Rec) (b : Int) (n : String)
    (h : n ∈ otherOf t b) : n ∈ otherOf (stepTop t e) b := by
  by_cases hb : b = e.bus_id
  · subst hb
    rw [otherOf, alook_stepTop_self, Option.getD_some]
    exact applyRec_other_mono e _ n h
  · rwa [otherOf, alook_stepTop_ne _ _ _ hb]

theorem otherOf_foldl_mono (db : List Rec) :
    ∀ (t : Table) (b : Int) (n : String), n ∈ otherOf t b
      → n ∈ otherOf (db.foldl stepTop t) b := by
  induction db with
  | nil => intro t b n h; exact h
  | cons e rest ih =>
    intro t b n h
    exact ih _ _ _ (otherOf_stepTop_mono t e b n h)

theorem mem_otherOf_foldl (db : List Rec) :
    ∀ (t : Table) (e : Rec), e ∈ db
      → e.stop_type ≠ "S" → e.stop_type ≠ "F"
      → e.stop_name ∈ otherOf (db.foldl stepTop t) e.bus_id := by
  induction db with
  | nil => intro t e h; cases h
  | cons f rest ih =>
    intro t e hmem hS hF
    rcases List.mem_cons.mp hmem with rfl | hmem'
    · rw [List.foldl_cons]
      refine otherOf_foldl_mono rest _ _ _ ?_
      rw [otherOf, alook_stepTop_self, Option.getD_some]
      exact applyRec_other_self e _ hS hF
    · rw [List.foldl_cons]
      exact ih _ _ hmem' hS hF

/-- C10: with a passing topology check, every record whose stop type is
neither `"S"` nor `"F"` (on-demand `"O"` included) has its stop name in
its line's `other_stop_names` set, hence in the line's full stop-name set;
so when two distinct lines share such a stop name, that name appears in
the derived transfer-stop set. -/
theorem on_demand_names_in_other (db : List Rec) (t : Table) (e1 e2 : Rec)
    (h : bus_lines_and_stops db = .ok t)
    (h1 : e1 ∈ db) (hs1 : e1.stop_type ≠ "S") (hf1 : e1.stop_type ≠ "F")
    (h2 : e2 ∈ db) (hs2 : e2.stop_type ≠ "S") (hf2 : e2.stop_type ≠ "F")
    (hne : e1.bus_id ≠ e2.bus_id) (hnm : e1.stop_name = e2.stop_name) :
    e1.stop_name ∈ otherOf t e1.bus_id
    ∧ e2.stop_name ∈ otherOf t e2.bus_id
    ∧ ∃ st tr fi, check_start_final_transfer_stops db = .ok (st, tr, fi)
        ∧ e1.stop_name ∈ tr := by
  have hnb : brokeDuring [] db = false := by
    cases hbd : brokeDuring [] db with
    | false => rfl
    | true =>
      obtain ⟨b, hb⟩ := broke_gives_error db hbd
      rw [hb] at h
      cases h
  have hts : t = db.foldl stepTop [] := by
    rw [ok_table h]
    exact scanGo_eq_foldl db [] hnb
  have m1 : e1.stop_name ∈ otherOf t e1.bus_id := by
    rw [hts]
    exact mem_otherOf_foldl db [] e1 h1 hs1 hf1
  have m2 : e2.stop_name ∈ otherOf t e2.bus_id := by
    rw [hts]
    exact mem_otherOf_foldl db [] e2 h2 hs2 hf2
  obtain ⟨st, tr, fi, hck, _, _, htr⟩ := transfer_spec_aux db t h
  refine ⟨m1, m2, st, tr, fi, hck, ?_⟩
  rw [htr]
  cases halo1 : alook t e1.bus_id with
  | none => rw [otherOf, halo1, Option.getD_none] at m1; cases m1
  | some lt1 =>
    cases halo2 : alook t e2.bus_id with
    | none => rw [otherOf, halo2, Option.getD_none] at m2; cases m2
    | some lt2 =>
      rw [otherOf, halo1, Option.getD_some] at m1
      rw [otherOf, halo2, Option.getD_some] at m2
      refine ⟨(e1.bus_id, lt1), (e2.bus_id, lt2),
        alook_some_mem halo1, alook_some_mem halo2, hne, ?_, ?_⟩
      · exact (mem_fullNames lt1 _).mpr (Or.inr (Or.inr m1))
      · rw [hnm]
        exact (mem_fullNames lt2 _).mpr (Or.inr (Or.inr m2))

/-- Witness for C10: the two lines of `onDemandExample` share the
on-demand stop "Central Street"; applying `on_demand_names_in_other` puts
it in both `other_stop_names` sets and in the transfer set. -/
theorem on_demand_names_in_other_witness :
    (bus_lines_and_stops onDemandExample
          = .ok (scanGo [] onDemandExample)
        ∧ odRec1 ∈ onDemandExample ∧ odRec2 ∈ onDemandExample
        ∧ odRec1.stop_type ≠ "S" ∧ odRec1.stop_type ≠ "F"
        ∧ odRec2.stop_type ≠ "S" ∧ odRec2.stop_type ≠ "F"
        ∧ odRec1.bus_id ≠ odRec2.bus_id
        ∧ odRec1.stop_name = odRec2.stop_name)
    ∧ (odRec1.stop_name ∈ otherOf (scanGo [] onDemandExample) odRec1.bus_id
        ∧ odRec2.stop_name
            ∈ otherOf (scanGo [] onDemandExample) odRec2.bus_id
        ∧ ∃ st tr fi,
            check_start_final_transfer_stops onDemandExample
                = .ok (st, tr, fi)
              ∧ odRec1.stop_name ∈ tr) :=
  ⟨⟨rfl, by decide, by decide, by decide, by decide, by decide, by decide,
      by decide, by decide⟩,
    on_demand_names_in_other onDemandExample _ odRec1 odRec2 rfl
      (by decide) (by decide) (by decide) (by decide) (by decide)
      (by decide) (by decide) (by decide)⟩

/-! ### Sorting lemmas for the on-demand report -/

theorem mem_sins (x : String) (l : List String) (n : String) :
    n ∈ sins x l ↔ n = x ∨ n ∈ l := by
  induction l with
  | nil => simp [sins]
  | cons y ys ih =>
    by_cases h : x ≤ y
    · simp [sins, h]
    · rw [show sins x (y :: ys) = y :: sins x ys by simp [sins, h]]
      rw [List.mem_cons, ih, List.mem_cons]
      tauto

theorem mem_ssort (l : List String) (n : String) :
    n ∈ ssort l ↔ n ∈ l := by
  induction l with
  | nil => simp [ssort]
  | cons x xs ih =>
    rw [show ssort (x :: xs) = sins x (ssort xs) from rfl, mem_sins, ih,
      List.mem_cons]

theorem sorted_sins (x : String) (l : List String)
    (h : l.Pairwise (· ≤ ·)) : (sins x l).Pairwise (· ≤ ·) := by
  induction l with
  | nil => simp [sins]
  | cons y ys ih =>
    rw [List.pairwise_cons] at h
    by_cases hxy : x ≤ y
    · rw [show sins x (y :: ys) = x :: y :: ys by simp [sins, hxy]]
      rw [List.pairwise_cons]
      refine ⟨?_, List.pairwise_cons.mpr h⟩
      intro z hz
      rcases List.mem_cons.mp hz with rfl | hz'
      · exact hxy
      · exact le_trans hxy (h.1 z hz')
    · rw [show sins x (y :: ys) = y :: sins x ys by simp [sins, hxy]]
      rw [List.pairwise_cons]
      refine ⟨?_, ih h.2⟩
      intro z hz
      rcases (mem_sins x ys z).mp hz with rfl | hz'
      · exact le_of_not_le hxy
      · exact h.1 z hz'

theorem sorted_ssort (l : List String) :
    (ssort l).Pairwise (· ≤ ·) := by
  induction l with
  | nil => simp [ssort]
  | cons x xs ih => exact sorted_sins x (ssort xs) ih

/-! ### The on-demand policy check (C6) -/

theorem mem_onDemandBad (st tr fi : List String) (db : List Rec) :
    ∀ (acc : List String) (n : String),
      n ∈ db.foldl
          (fun acc e =>
            if e.stop_type = "O"
                ∧ (e.stop_name ∈ st ∨ e.stop_name ∈ tr ∨ e.stop_name ∈ fi)
            then sinsert e.stop_name acc else acc) acc
        ↔ n ∈ acc
            ∨ ∃ e, e ∈ db ∧ e.stop_type = "O" ∧ e.stop_name = n
                ∧ (n ∈ st ∨ n ∈ tr ∨ n ∈ fi) := by
  induction db with
  | nil => intro acc n; simp
  | cons f rest ih =>
    intro acc n
    rw [List.foldl_cons]
    by_cases hc : f.stop_type = "O"
        ∧ (f.stop_name ∈ st ∨ f.stop_name ∈ tr ∨ f.stop_name ∈ fi)
    · rw [if_pos hc, ih, mem_sinsert]
      constructor
      · rintro ((rfl | h) | ⟨e, he, h1, h2, h3⟩)
        · exact Or.inr ⟨f, List.mem_cons_self f rest, hc.1, rfl, hc.2⟩
        · exact Or.inl h
        · exact Or.inr ⟨e, List.mem_cons_of_mem _ he, h1, h2, h3⟩
      · rintro (h | ⟨e, he, h1, h2, h3⟩)
        · exact Or.inl (Or.inr h)
        · rcases List.mem_cons.mp he with rfl | he'
          · exact Or.inl (Or.inl h2.symm)
          · exact Or.inr ⟨e, he', h1, h2, h3⟩
    · rw [if_neg hc, ih]
      constructor
      · rintro (h | ⟨e, he, h1, h2, h3⟩)
        · exact Or.inl h
        · exact Or.inr ⟨e, List.mem_cons_of_mem _ he, h1, h2, h3⟩
      · rintro (h | ⟨e, he, h1, h2, h3⟩)
        · exact Or.inl h
        · rcases List.mem_cons.mp he with rfl | he'
          · exact absurd ⟨h1, h2 ▸ h3⟩ hc
          · exact Or.inr ⟨e, he', h1, h2, h3⟩

/-- C6: `check_on_demand` collects exactly the stop names that appear on a
record with stop type `"O"` while also being members of
`start ∪ transfer ∪ finish`, and prints that set sorted when it is
non-empty, `OK` otherwise. -/
theorem check_on_demand_spec (db : List Rec) (st tr fi : List String) :
    onDemandSpecProp db st tr fi := by
  refine ⟨fun n => (mem_onDemandBad st tr fi db [] n).trans (by simp),
    ?_, sorted_ssort _, fun n => mem_ssort _ n⟩
  show (if (onDemandBad db st tr fi).isEmpty then Report.ok
      else Report.wrong (ssort (onDemandBad db st tr fi))) = _
  by_cases h : onDemandBad db st tr fi = []
  · rw [if_pos h, if_pos (by simp [h])]
  · rw [if_neg h, if_neg (by simpa [List.isEmpty_iff] using h)]

/-- Witness for C6: the sole line-1 on-demand record, with "Central
Street" among the transfer stops, obtained by applying
`check_on_demand_spec` at that concrete input. -/
theorem check_on_demand_spec_witness :
    onDemandSpecProp [odRec1] [] ["Central Street"] [] :=
  check_on_demand_spec [odRec1] [] ["Central Street"] []

/-! ### Field-validator counting lemmas -/

theorem alook_bump_self (l : List (String × Nat)) (k : String) :
    alook (bump l k) k = (alook l k).map (· + 1) := by
  induction l with
  | nil => simp [bump, alook]
  | cons hd tl ih =>
    by_cases h : hd.1 = k <;> simp [bump, alook, h, ih]

theorem alook_bump_ne (l : List (String × Nat)) (k b : String)
    (h : b ≠ k) : alook (bump l k) b = alook l b := by
  induction l with
  | nil => simp [bump, alook]
  | cons hd tl ih =>
    by_cases hh : hd.1 = k
    · simp [bump, alook, hh, Ne.symm h, ih]
    · by_cases hh' : hd.1 = b <;> simp [bump, alook, hh, hh', h, ih]

theorem alook_setdefault_self (l : List (String × Nat)) (k : String) :
    alook (setdefault l k) k = some ((alook l k).getD 0) := by
  unfold setdefault
  cases h : alook l k with
  | some w => simp [h]
  | none => simp [h, alook_append_single l k 0 k h]

theorem alook_setdefault_ne (l : List (String × Nat)) (k b : String)
    (h : b ≠ k) : alook (setdefault l k) b = alook l b := by
  unfold setdefault
  cases hl : alook l k with
  | some w => simp [hl]
  | none =>
    simp only [hl, Option.isSome_none, Bool.false_eq_true, if_false]
    cases hl' : alook l b with
    | some w => exact alook_append_of_some _ hl'
    | none => rw [alook_append_single l k 0 b hl', if_neg (Ne.symm h)]

theorem entryStep_at_key (errs : List (String × Nat)) (kv : String × Value)
    (k : String) (hthis : kv.1 = k)
    (hspec : (db_fields_specification k).isSome = true) :
    (alook (entryStep errs kv) k).getD 0
      = (alook errs k).getD 0 + (if predAccepts kv then 0 else 1) := by
  obtain ⟨pred, hpred⟩ := Option.isSome_iff_exists.mp hspec
  have hacc : predAccepts kv = pred kv.2 := by
    rw [predAccepts, hthis, hpred]
  rw [entryStep, hthis, hpred]
  by_cases hp : pred kv.2 = true
  · simp only [hp, if_true, hacc]
    rw [alook_setdefault_self]
    simp
  · simp only [hp, Bool.false_eq_true, if_false, hacc]
    rw [alook_bump_self, alook_setdefault_self]
    simp [hp]

theorem entryStep_other (errs : List (String × Nat)) (kv : String × Value)
    (k : String) (hne : kv.1 ≠ k) :
    alook (entryStep errs kv) k = alook errs k := by
  rw [entryStep]
  cases hspec : db_fields_specification kv.1 with
  | none => rfl
  | some pred =>
    by_cases hp : pred kv.2 = true
    · simp only [hp, if_true]
      exact alook_setdefault_ne _ _ _ (Ne.symm hne)
    · simp only [hp, Bool.false_eq_true, if_false]
      rw [alook_bump_ne _ _ _ (Ne.symm hne)]
      exact alook_setdefault_ne _ _ _ (Ne.symm hne)

theorem entry_fold_count (k : String)
    (hspec : (db_fields_specification k).isSome = true)
    (entry : DRecord) :
    ∀ errs : List (String × Nat),
      (alook (entry.foldl entryStep errs) k).getD 0
        = (alook errs k).getD 0 + entryFailures entry k := by
  induction entry with
  | nil => intro errs; simp [entryFailures]
  | cons kv rest ih =>
    intro errs
    rw [List.foldl_cons, ih]
    have hfail : entryFailures (kv :: rest) k
        = (if kv.1 = k ∧ predAccepts kv = false then 1 else 0)
            + entryFailures rest k := by
      rw [entryFailures, List.filter_cons]
      by_cases hc : kv.1 = k ∧ predAccepts kv = false
      · simp [hc.1, hc.2, entryFailures, Nat.add_comm]
      · have hc' : ¬(decide (kv.1 = k) && !predAccepts kv) = true := by
          simp only [Bool.and_eq_true, decide_eq_true_eq,
            Bool.not_eq_true']
          exact hc
        simp only [hc', Bool.false_eq_true, if_false]
        simp [hc, entryFailures]
    by_cases hk : kv.1 = k
    · rw [entryStep_at_key errs kv k hk hspec, hfail]
      by_cases hp : predAccepts kv = true
      · simp [hp, hk]
      · simp only [Bool.not_eq_true] at hp
        simp [hp, hk]
        omega
    · rw [entryStep_other errs kv k hk, hfail]
      simp [hk]

theorem errCount_eq_sum (db : List DRecord) (k : String)
    (hspec : (db_fields_specification k).isSome = true) :
    errCount db k = (db.map fun entry => entryFailures entry k).sum := by
  suffices hgen : ∀ errs : List (String × Nat),
      (alook (db.foldl (fun errs entry => entry.foldl entryStep errs) errs)
          k).getD 0
        = (alook errs k).getD 0
            + (db.map fun entry => entryFailures entry k).sum by
    have := hgen []
    simpa [errCount, dbErrors, alook] using this
  induction db with
  | nil => intro errs; simp
  | cons entry rest ih =>
    intro errs
    rw [List.foldl_cons, ih, entry_fold_count k hspec entry]
    simp [Nat.add_assoc]

/-- C7: the `a_time` field predicate accepts the literal string `"23:60"`
(permissive minute bound), so a record whose `a_time` items all carry
`"23:60"` contributes no `a_time` failure, the per-key counter summing the
per-record failures. -/
theorem a_time_permissive (db : List DRecord) (entry : DRecord)
    (h1 : entry ∈ db)
    (h2 : ∀ v, ("a_time", v) ∈ entry → v = Value.vstr "23:60") :
    db_fields_specification "a_time" = some (strPred a_time_matches)
    ∧ strPred a_time_matches (.vstr "23:60") = true
    ∧ entryFailures entry "a_time" = 0
    ∧ errCount db "a_time"
        = (db.map fun e => entryFailures e "a_time").sum := by
  refine ⟨rfl, by decide, ?_, errCount_eq_sum db "a_time" (by decide)⟩
  rw [entryFailures, List.length_eq_zero, List.filter_eq_nil_iff]
  intro kv hkv
  by_cases hk : kv.1 = "a_time"
  · have hv : kv.2 = Value.vstr "23:60" := by
      refine h2 kv.2 ?_
      rw [show ("a_time", kv.2) = kv from Prod.ext hk.symm rfl]
      exact hkv
    have hacc : predAccepts kv = true := by
      rw [show kv = ("a_time", Value.vstr "23:60") from Prod.ext hk hv]
      decide
    simp [hacc]
  · simp [hk]

/-- Witness for C7: a record whose sole known field is
`a_time = "23:60"` counts zero failures — by applying
`a_time_permissive`. -/
theorem a_time_permissive_witness :
    aTimeEntry ∈ aTimeDb
    ∧ (∀ v, ("a_time", v) ∈ aTimeEntry → v = Value.vstr "23:60")
    ∧ (db_fields_specification "a_time" = some (strPred a_time_matches)
        ∧ strPred a_time_matches (.vstr "23:60") = true
        ∧ entryFailures aTimeEntry "a_time" = 0
        ∧ errCount aTimeDb "a_time"
            = (aTimeDb.map fun e => entryFailures e "a_time").sum) := by
  have hmem : aTimeEntry ∈ aTimeDb := by decide
  have hall : ∀ v, ("a_time", v) ∈ aTimeEntry → v = Value.vstr "23:60" := by
    intro v hv
    simpa [aTimeEntry] using hv
  exact ⟨hmem, hall, a_time_permissive aTimeDb aTimeEntry hmem hall⟩

/-! ### The return value of `check_db_fields` (C1) -/

/-- C1 is wrong about the code: on a collection holding one fully valid
record, every per-key failure count is zero, the error report prints
nothing, and yet `check_db_fields` returns `false` — because the function
ends with `not bool(errors)` while `errors.setdefault(key, 0)` has filled
the dictionary with zero entries for every known key it saw.  (The
docstring promises `True` when no errors are found, so this is a slip in
the code, not in the claim.) -/
theorem check_db_fields_false_on_valid :
    (∀ p ∈ dbErrors validRecordDb, p.2 = 0)
    ∧ db_error_report validRecordDb = []
    ∧ check_db_fields validRecordDb = false
    ∧ errCount flippedRecordDb "stop_name" = 1
    ∧ check_db_fields flippedRecordDb = false := by decide

/-! ### `stop_name` boundary cases (C8) -/

/-- C8: the `stop_name` predicate rejects "annville Road" (lower-case
first letter), accepts "Annville Road", and rejects "Annville Lane"
(suffix not among Road/Avenue/Boulevard/Street). -/
theorem stop_name_edge_cases :
    db_fields_specification "stop_name" = some (strPred stop_name_matches)
    ∧ strPred stop_name_matches (.vstr "annville Road") = false
    ∧ strPred stop_name_matches (.vstr "Annville Road") = true
    ∧ strPred stop_name_matches (.vstr "Annville Lane") = false :=
  ⟨rfl, by decide, by decide, by decide⟩

end EasyRider
